import Mathlib

/-
Verification of the lally-ui registry toolchain (packages/ui).

Shallow embedding of the registry helpers (packages/ui/src/registry/helpers.ts),
the catalog (packages/ui/src/registry/registry.ts and its items), and the
registry exporter (packages/ui/src/main.ts, export section).

Strings are modelled as `List Char` (`Str`).  Node path resolution
(`path.resolve`, posix) and the file system are modelled explicitly; the few
behaviours that depend on ambient process state (a relative base path, which
Node would resolve against `process.cwd()`) or on unmodelled JavaScript regex
features are mapped to `Option`/`Except` failure values and are excluded by
hypotheses in the theorems below.
-/

/-- Characters of a string literal; all model strings are `List Char`. -/
def str (s : String) : List Char := s.data

abbrev Str := List Char

/-- The path separator. -/
def sl : Char := '/'

/-- Single-quote character (U+0027). -/
def sqc : Char := Char.ofNat 39

/-- Double-quote character (U+0022). -/
def dqc : Char := Char.ofNat 34

/-- JS `String.prototype.startsWith` on character lists. -/
def startsWithL : Str → Str → Bool
  | [], _ => true
  | _ :: _, [] => false
  | p :: ps, c :: cs => p = c && startsWithL ps cs

/-- JS `String.prototype.includes` (substring occurrence) on character lists. -/
def containsL (pat : Str) : Str → Bool
  | [] => startsWithL pat []
  | c :: cs => startsWithL pat (c :: cs) || containsL pat cs

/- ---------------------------------------------------------------------- -/
/- Node posix path model: `path.resolve` with normalization.               -/
/- ---------------------------------------------------------------------- -/

/-- Split a path at every slash; returns at least one (possibly empty) segment. -/
def splitSlash : Str → List Str
  | [] => [[]]
  | c :: cs =>
    if c = sl then [] :: splitSlash cs
    else
      match splitSlash cs with
      | s :: rest => (c :: s) :: rest
      | [] => [[c]]

/-- Join segments with slashes (inverse of `splitSlash`). -/
def interSlash : List Str → Str
  | [] => []
  | [s] => s
  | s :: rest => s ++ sl :: interSlash rest

/-- Normalization stack for an absolute path: empty and dot segments vanish,
dot-dot pops (and is dropped at the root), other segments push. -/
def normStack (stack : List Str) : List Str → List Str
  | [] => stack.reverse
  | seg :: rest =>
    if seg = [] ∨ seg = str "." then normStack stack rest
    else if seg = str ".." then normStack (stack.drop 1) rest
    else normStack (seg :: stack) rest

/-- Normalize an absolute posix path (as `path.resolve` does). -/
def normAbs (p : Str) : Str :=
  match normStack [] (splitSlash p) with
  | [] => [sl]
  | segs => sl :: interSlash segs

/-- Whether a path is absolute (starts with a slash). -/
def isAbsL : Str → Bool
  | [] => false
  | c :: _ => c = sl

/-- Node `path.resolve(segments...)`: take the suffix starting at the last
absolute segment, join, and normalize.  When no segment is absolute Node
prepends `process.cwd()`, which is not modelled: `none`. -/
def nodeResolve (segs : List Str) : Option Str :=
  let rev := segs.reverse
  let pre := rev.takeWhile (fun s => !isAbsL s)
  match rev.drop pre.length with
  | [] => none
  | a :: _ => some (normAbs (interSlash (a :: pre.reverse)))

/-- A clean path segment: nonempty and neither `.` nor `..`. -/
def cleanSegB (s : Str) : Bool :=
  !(s = []) && !(s = str ".") && !(s = str "..")

/-- A clean relative path: every slash-separated segment is clean. -/
def cleanRelB (s : Str) : Bool :=
  (splitSlash s).all cleanSegB

/-- A clean absolute path: a slash followed by a clean relative path. -/
def cleanAbsB : Str → Bool
  | [] => false
  | c :: cs => c = sl && cleanRelB cs

/- ---------------------------------------------------------------------- -/
/- File-system model: files (path to content) and directories.             -/
/- ---------------------------------------------------------------------- -/

structure FS where
  files : List (Str × Str)
  dirs : List Str
deriving DecidableEq

/-- Content of the file at `p`, if a file exists there. -/
def lookupFile (fs : FS) (p : Str) : Option Str :=
  (fs.files.find? (fun e => e.1 = p)).map (fun e => e.2)

/-- Node `existsSync`: true when a file or directory exists at `p`. -/
def existsSync (fs : FS) (p : Str) : Bool :=
  (lookupFile fs p).isSome || fs.dirs.contains p

/-- Node posix `path.dirname`, scanning for the slash before the last
non-slash run; positions below 1 are never taken as the cut. -/
def dirEnd : List Char → Nat → Bool → Option Nat
  | [], _, _ => none
  | c :: cs, n, matchedSlash =>
    if c = sl then
      if matchedSlash then dirEnd cs (n - 1) matchedSlash else some n
    else dirEnd cs (n - 1) false

/-- Node posix `path.dirname`. -/
def dirname (p : Str) : Str :=
  match p with
  | [] => str "."
  | c0 :: rest =>
    let hasRoot := c0 = sl
    match dirEnd rest.reverse (p.length - 1) true with
    | none => if hasRoot then [sl] else str "."
    | some e => if hasRoot ∧ e = 1 then [sl, sl] else p.take e

/-- The directory together with its chain of parents (fuel-bounded by the
path length; `dirname` never lengthens its argument). -/
def ancestors : Nat → Str → List Str
  | 0, d => [d]
  | fuel + 1, d =>
    let par := dirname d
    if par = d then [d] else d :: ancestors fuel par

/-- `mkdir(dir, { recursive: true })`: record the directory and its parents. -/
def mkdirp (fs : FS) (d : Str) : FS :=
  { fs with dirs := ancestors d.length d ++ fs.dirs }

inductive WriteResult
  | created
  | skipped
deriving DecidableEq

/-- `writeIfMissing` (packages/ui/src/registry/helpers.ts): skip when the
path exists, otherwise create intermediate directories and write. -/
def writeIfMissing (fs : FS) (path content : Str) : FS × WriteResult :=
  if existsSync fs path then (fs, WriteResult.skipped)
  else
    let fs1 := mkdirp fs (dirname path)
    ({ fs1 with files := (path, content) :: fs1.files }, WriteResult.created)

/- ---------------------------------------------------------------------- -/
/- Import rewriter: `new RegExp("from ['\"]KEY['\"]", "g")` replacement.   -/
/- The key is interpolated unescaped, so `.` in a key acts as the regex    -/
/- wildcard.  Keys holding other regex metacharacters, and replacement     -/
/- values holding `$` (JS replacement-pattern syntax), are not modelled:   -/
/- those cases yield `none`.                                               -/
/- ---------------------------------------------------------------------- -/

inductive RTok
  | lit (c : Char)
  | dot
  | quo
deriving DecidableEq

/-- Which characters a single pattern token accepts; the JS `.` wildcard
matches everything except line terminators. -/
def tokMatches : RTok → Char → Bool
  | RTok.lit a, c => a = c
  | RTok.dot, c =>
    !(c = '\n' ∨ c = '\r' ∨ c = Char.ofNat 0x2028 ∨ c = Char.ofNat 0x2029)
  | RTok.quo, c => c = sqc ∨ c = dqc

/-- Match a token list against the head of the input; on success return the
rest of the input. -/
def matchToks : List RTok → Str → Option Str
  | [], rest => some rest
  | _ :: _, [] => none
  | t :: ts, c :: cs => if tokMatches t c then matchToks ts cs else none

/-- Regex metacharacters (other than `.`) that the model refuses. -/
def regexMeta : List Char :=
  ['*', '+', '?', Char.ofNat 40, Char.ofNat 41, Char.ofNat 91, Char.ofNat 93,
   Char.ofNat 123, Char.ofNat 125, Char.ofNat 124, '^', Char.ofNat 36, Char.ofNat 92]

/-- Compile one key character to a pattern token. -/
def compileKeyChar (c : Char) : Option RTok :=
  if c = '.' then some RTok.dot
  else if regexMeta.contains c then none
  else some (RTok.lit c)

/-- Compile a whole key to pattern tokens; `none` when the key uses
unmodelled regex metacharacters. -/
def compileKey (k : Str) : Option (List RTok) :=
  k.mapM compileKeyChar

/-- The full pattern `from ['\"]KEY['\"]`. -/
def patternOf (toks : List RTok) : List RTok :=
  (str "from ").map RTok.lit ++ RTok.quo :: (toks ++ [RTok.quo])

/-- Left-to-right global scan replacing every non-overlapping match, as JS
`String.replace` with a `g` regex.  Fuel is bounded by the input length;
every step consumes at least one input character (patterns from `patternOf`
are never empty), so the fuel never runs out before the input does. -/
def replaceScan (pat : List RTok) (repl : Str) : Nat → Str → Str
  | 0, s => s
  | _ + 1, [] => []
  | fuel + 1, c :: cs =>
    match matchToks pat (c :: cs) with
    | some rest => repl ++ replaceScan pat repl fuel rest
    | none => c :: replaceScan pat repl fuel cs

/-- One entry of the replacement loop: build the regex from the key and
globally replace with `from 'VALUE'` (always single-quoted). -/
def applyOne (content k v : Str) : Option Str :=
  match compileKey k with
  | none => none
  | some toks =>
    if v.contains (Char.ofNat 36) then none
    else
      some (replaceScan (patternOf toks) (str "from " ++ sqc :: (v ++ [sqc]))
        content.length content)

/-- `applyImportReplacements` (packages/ui/src/registry/helpers.ts): fold the
replacement entries, in insertion order, over the content. -/
def applyImportReplacements (content : Str)
    (replaceImports : Option (List (Str × Str))) : Option Str :=
  match replaceImports with
  | none => some content
  | some entries =>
    entries.foldlM (fun acc kv => applyOne acc kv.1 kv.2) content

/-- Declarative specification of one global-regex replacement pass: the
output copies unmatched characters verbatim and emits `repl` for every
non-overlapping leftmost match. -/
inductive Rewrites (pat : List RTok) (repl : Str) : Str → Str → Prop
  | nil : Rewrites pat repl [] []
  | skip (c : Char) (cs out : Str) :
      matchToks pat (c :: cs) = none →
      Rewrites pat repl cs out →
      Rewrites pat repl (c :: cs) (c :: out)
  | replace (s rest out : Str) :
      matchToks pat s = some rest →
      Rewrites pat repl rest out →
      Rewrites pat repl s (repl ++ out)

/-- Declarative specification of the whole replacement loop: each mapping
entry, in order, rewrites the previous text, always emitting the
single-quoted form `from 'VALUE'` at every match of its key's pattern. -/
inductive RewriteSeq : List (Str × Str) → Str → Str → Prop
  | nil (content : Str) : RewriteSeq [] content content
  | cons (k v : Str) (rest : List (Str × Str)) (content mid out : Str)
      (toks : List RTok) :
      compileKey k = some toks →
      Rewrites (patternOf toks) (str "from " ++ (sqc :: (v ++ [sqc]))) content mid →
      RewriteSeq rest mid out →
      RewriteSeq ((k, v) :: rest) content out

/- ---------------------------------------------------------------------- -/
/- Aliases and configuration (packages/ui/src/registry/types.ts).          -/
/- ---------------------------------------------------------------------- -/

structure AliasesCfg where
  components : Option Str
  ui : Option Str
  utils : Option Str
deriving DecidableEq

structure ComponentsConfig where
  aliases : Option AliasesCfg
deriving DecidableEq

structure AliasContext where
  componentsAlias : Str
  uiAlias : Str
  utilsAlias : Str
deriving DecidableEq

/-- `resolveAliasPath` (helpers.ts): the `@/` shorthand maps under
`<cwd>/src`, anything else resolves relative to `cwd` (the source has a
separate, identical branch for `./`- and `../`-style aliases). -/
def resolveAliasPath (aliasStr cwd : Str) : Option Str :=
  if startsWithL (str "@/") aliasStr then
    nodeResolve [cwd, str "src", aliasStr.drop 2]
  else if startsWithL (str "./") aliasStr || startsWithL (str "../") aliasStr then
    nodeResolve [cwd, aliasStr]
  else
    nodeResolve [cwd, aliasStr]

/-- JS `String.prototype.replaceAll` with a plain (non-regex) pattern:
left-to-right replacement of every non-overlapping occurrence.  Fuel is
bounded by the input length; patterns used here are never empty. -/
def replaceAllLit (pat repl : Str) : Nat → Str → Str
  | 0, s => s
  | _ + 1, [] => []
  | fuel + 1, c :: cs =>
    if startsWithL pat (c :: cs) then
      repl ++ replaceAllLit pat repl fuel (List.drop pat.length (c :: cs))
    else c :: replaceAllLit pat repl fuel cs

/-- `interpolateTargetPath` (helpers.ts): substitute the three alias
placeholders into a target template. -/
def interpolateTargetPath (template : Str) (aliases : AliasContext) : Str :=
  let s1 := replaceAllLit (str "{componentsAlias}") aliases.componentsAlias
    template.length template
  let s2 := replaceAllLit (str "{uiAlias}") aliases.uiAlias s1.length s1
  replaceAllLit (str "{utilsAlias}") aliases.utilsAlias s2.length s2

/-- `readAliasContext` (helpers.ts).  JSON parsing is external to the
repository, so the parser is a parameter turning the raw file content into
the configuration shape the code reads fields from.  A missing file is the
missing-configuration error; the remaining error branches are model
artefacts for unmodelled ambient state (relative `cwd`) and are excluded by
hypotheses where the theorems need them to be. -/
def readAliasContext (parseCfg : Str → ComponentsConfig) (fs : FS) (cwd : Str) :
    Except Str (AliasContext × Str) :=
  match nodeResolve [cwd, str "components.json"] with
  | none => Except.error (str "unmodelled relative cwd")
  | some componentsJsonPath =>
    if existsSync fs componentsJsonPath = false then
      Except.error (str "Missing components.json in current directory. Run shadcn init first.")
    else
      match lookupFile fs componentsJsonPath with
      | none => Except.error (str "unmodelled: path exists but is not a file")
      | some rawConfig =>
        let config := parseCfg rawConfig
        let aliases : AliasContext :=
          { componentsAlias :=
              (config.aliases.bind AliasesCfg.components).getD (str "@/components"),
            uiAlias :=
              (config.aliases.bind AliasesCfg.ui).getD (str "@/components/ui"),
            utilsAlias :=
              (config.aliases.bind AliasesCfg.utils).getD (str "@/lib/utils") }
        match resolveAliasPath aliases.componentsAlias cwd with
        | none => Except.error (str "unmodelled relative cwd")
        | some componentsRoot => Except.ok (aliases, componentsRoot)

/- ---------------------------------------------------------------------- -/
/- Registry catalog (packages/ui/src/registry/registry.ts and items/).     -/
/- ---------------------------------------------------------------------- -/

structure RegistryFile where
  source : Str
  target : Str
  replaceImports : Option (List (Str × Str))
deriving DecidableEq

structure RegistryItem where
  id : Str
  nspace : Str
  name : Str
  description : Str
  dependencies : Option (List Str)
  registryDependencies : Option (List Str)
  files : List RegistryFile
deriving DecidableEq

/-- `fumadocsSdkLayoutItem` (registry/items/fumadocs-sdk-layout.ts). -/
def fumadocsSdkLayoutItem : RegistryItem :=
  { id := str "fumadocs/sdk-layout",
    nspace := str "fumadocs",
    name := str "sdk-layout",
    description := str "Interactive SDK docs layout components for Fumadocs pages.",
    dependencies := some [str "fumadocs-ui", str "json5"],
    registryDependencies := some [str "combobox"],
    files :=
      [ { source := str "fumadocs/blocks/sdk-layout/index.ts",
          target := str "sdk-layout/index.ts",
          replaceImports := none },
        { source := str "fumadocs/blocks/sdk-layout/types/sdk-function-page-types.ts",
          target := str "sdk-layout/types/sdk-function-page-types.ts",
          replaceImports := none },
        { source := str "fumadocs/blocks/sdk-layout/sections/sdk-section.tsx",
          target := str "sdk-layout/sections/sdk-section.tsx",
          replaceImports := some [(str "../../../lib/cn", str "{utilsAlias}")] },
        { source := str "fumadocs/blocks/sdk-layout/interactive/sdk-function-page-interactive.tsx",
          target := str "sdk-layout/interactive/sdk-function-page-interactive.tsx",
          replaceImports := some
            [(str "../../../components/shared/package-manager-tabs",
              str "{componentsAlias}/mdx/package-manager-tabs"),
             (str "@/components/ui/combobox", str "{uiAlias}/combobox")] },
        { source := str "fumadocs/components/mdx/package-manager-tabs.tsx",
          target := str "mdx/package-manager-tabs.tsx",
          replaceImports := none } ] }

/-- `brandingLogoWithBadgeItem` (registry/items/branding-logo-with-badge.ts). -/
def brandingLogoWithBadgeItem : RegistryItem :=
  { id := str "branding/logo-with-badge",
    nspace := str "branding",
    name := str "logo-with-badge",
    description := str "Brand header row with logo slot, title, and badge text.",
    dependencies := none,
    registryDependencies := none,
    files :=
      [ { source := str "branding/components/branding/logo-with-badge.tsx",
          target := str "components/branding/logo-with-badge.tsx",
          replaceImports := none } ] }

/-- The compiled-in catalog (registry.ts, `items`). -/
def registryItems : List RegistryItem :=
  [fumadocsSdkLayoutItem, brandingLogoWithBadgeItem]

/-- `listRegistryItems` (registry.ts). -/
def listRegistryItems : List RegistryItem := registryItems

/-- `findRegistryItem` (registry.ts): first item with the given id, `none`
standing for the source's `null`. -/
def findRegistryItem (id : Str) : Option RegistryItem :=
  registryItems.find? (fun item => item.id = id)

/- ---------------------------------------------------------------------- -/
/- Registry exporter (packages/ui/src/main.ts, export section).            -/
/- ---------------------------------------------------------------------- -/

/-- `DEFAULT_ALIASES` (main.ts). -/
def DEFAULT_ALIASES : AliasContext :=
  { componentsAlias := str "@/components",
    uiAlias := str "@/components/ui",
    utilsAlias := str "@/lib/utils" }

/-- JS word character (`\w`): ASCII letter, digit or underscore. -/
def isWordChar (c : Char) : Bool :=
  (Char.ofNat 97 ≤ c ∧ c ≤ Char.ofNat 122) ∨ (Char.ofNat 65 ≤ c ∧ c ≤ Char.ofNat 90) ∨
  (Char.ofNat 48 ≤ c ∧ c ≤ Char.ofNat 57) ∨ c = '_'

/-- Uppercase every word character at a word boundary (`\b\w` replacement);
the boolean carries whether the previous character was a word character. -/
def upWordStarts (prevWord : Bool) : Str → Str
  | [] => []
  | c :: cs =>
    (if prevWord = false ∧ isWordChar c then c.toUpper else c) ::
      upWordStarts (isWordChar c) cs

/-- `titleCase` (main.ts): dashes and underscores become spaces, then word
starts are uppercased. -/
def titleCase (text : Str) : Str :=
  upWordStarts false (text.map (fun c => if c = '-' ∨ c = '_' then ' ' else c))

/-- `slugForItem` (main.ts): the id with every slash replaced by a dash. -/
def slugForItem (item : RegistryItem) : Str :=
  replaceAllLit (str "/") (str "-") item.id.length item.id

/-- `fileTypeForTarget` (main.ts): four rules in fixed priority order. -/
def fileTypeForTarget (target : Str) : Str :=
  if startsWithL (str "app/") target then str "registry:page"
  else if containsL (str "/hooks/") target || startsWithL (str "hooks/") target then
    str "registry:hook"
  else if containsL (str "/lib/") target || startsWithL (str "lib/") target ||
      containsL (str "/types/") target || startsWithL (str "types/") target then
    str "registry:lib"
  else str "registry:component"

/-- Modelled from the claim wording of C7 (refinement comparison): a path
literally containing the substring `hooks/` (not only `/hooks/`) counts as a
hook, and likewise for `lib/` and `types/`. -/
def fileTypeForTargetClaim (target : Str) : Str :=
  if startsWithL (str "app/") target then str "registry:page"
  else if containsL (str "hooks/") target then str "registry:hook"
  else if containsL (str "lib/") target || containsL (str "types/") target then
    str "registry:lib"
  else str "registry:component"

/-- Modelled from the amended claim wording of C7: hook means the path
contains `/hooks/` or begins with `hooks/`; library means it contains
`/lib/` or `/types/` or begins with `lib/` or `types/`. -/
def fileTypeForTargetAmended (target : Str) : Str :=
  if startsWithL (str "app/") target then str "registry:page"
  else if containsL (str "/hooks/") target || startsWithL (str "hooks/") target then
    str "registry:hook"
  else if containsL (str "/lib/") target || startsWithL (str "lib/") target ||
      containsL (str "/types/") target || startsWithL (str "types/") target then
    str "registry:lib"
  else str "registry:component"

/-- Content used for the quote-style claims: one double-quoted import that
the mapping matches followed by one double-quoted import it does not. -/
def c10Tail : Str := str ";from " ++ dqc :: (str "y" ++ (dqc :: str ";"))

def c10Content : Str := str "from " ++ dqc :: (str "@/x" ++ (dqc :: c10Tail))

structure ExportedFile where
  path : Str
  content : Str
  ftype : Str
  target : Str
deriving DecidableEq

structure ExportedItem where
  name : Str
  title : Str
  description : Str
  dependencies : Option (List Str)
  registryDependencies : Option (List Str)
  files : List ExportedFile
deriving DecidableEq

structure ManifestFile where
  path : Str
  ftype : Str
  target : Str
deriving DecidableEq

structure ManifestItem where
  name : Str
  title : Str
  description : Str
  dependencies : Option (List Str)
  registryDependencies : Option (List Str)
  files : List ManifestFile
deriving DecidableEq

structure Manifest where
  name : Str
  homepage : Str
  items : List ManifestItem
deriving DecidableEq

/-- A JSON document written by the exporter (JSON serialization itself is
injective formatting and is not modelled). -/
inductive WDoc
  | item (d : ExportedItem)
  | manifest (m : Manifest)
deriving DecidableEq

abbrev WriteEvent := Str × WDoc

/-- The per-item exported document (main.ts, `exportedItem`). -/
def mkExportedItem (item : RegistryItem) (files : List ExportedFile) : ExportedItem :=
  { name := slugForItem item,
    title := titleCase (slugForItem item),
    description := item.description,
    dependencies := item.dependencies,
    registryDependencies := item.registryDependencies,
    files := files }

/-- Strip the content for the aggregate manifest (main.ts, `files.map`). -/
def toManifestFile (f : ExportedFile) : ManifestFile :=
  { path := f.path, ftype := f.ftype, target := f.target }

/-- The aggregate-manifest entry pushed for an item (main.ts, `exportedItems.push`). -/
def mkManifestItem (item : RegistryItem) (files : List ExportedFile) : ManifestItem :=
  { name := slugForItem item,
    title := titleCase (slugForItem item),
    description := item.description,
    dependencies := item.dependencies,
    registryDependencies := item.registryDependencies,
    files := files.map toManifestFile }

/-- `readTemplateContent` (main.ts), per file: resolve the source under the
template root, fail fatally when it does not exist, read it, interpolate the
default aliases into the replacement values, and rewrite imports. -/
def readTemplateFiles (fs : FS) (templateRoot slug : Str) :
    List RegistryFile → Except Str (List ExportedFile)
  | [] => Except.ok []
  | f :: rest =>
    match nodeResolve [templateRoot, f.source] with
    | none => Except.error (str "unmodelled relative template root")
    | some sourcePath =>
      if existsSync fs sourcePath = false then
        Except.error (str "Missing template source for registry export: " ++ sourcePath)
      else
        match lookupFile fs sourcePath with
        | none => Except.error (str "unmodelled: template source is a directory")
        | some source =>
          match applyImportReplacements source
              (f.replaceImports.map (fun entries => entries.map
                (fun kv => (kv.1, interpolateTargetPath kv.2 DEFAULT_ALIASES)))) with
          | none => Except.error (str "unmodelled regex key or replacement")
          | some content =>
            match readTemplateFiles fs templateRoot slug rest with
            | Except.error e => Except.error e
            | Except.ok files =>
              Except.ok
                ({ path := str "registry/chris-lally/" ++ slug ++ sl :: f.target,
                   content := content,
                   ftype := fileTypeForTarget f.target,
                   target := f.target } :: files)

/-- The exporter loop over the catalog: the list of writes performed so far
(per-item JSON documents, in catalog order) paired with either the collected
aggregate-manifest entries or the error that aborted the loop.  A failing
item performs no further writes, but writes of earlier items stand. -/
def exportItemsAcc (fs : FS) (templateRoot outDir : Str) :
    List RegistryItem → List WriteEvent × Except Str (List ManifestItem)
  | [] => ([], Except.ok [])
  | item :: rest =>
    match readTemplateFiles fs templateRoot (slugForItem item) item.files with
    | Except.error e => ([], Except.error e)
    | Except.ok files =>
      match nodeResolve [outDir, slugForItem item ++ str ".json"] with
      | none => ([], Except.error (str "unmodelled relative outDir"))
      | some itemPath =>
        ((itemPath, WDoc.item (mkExportedItem item files)) ::
            (exportItemsAcc fs templateRoot outDir rest).1,
          (exportItemsAcc fs templateRoot outDir rest).2.map
            (fun ms => mkManifestItem item files :: ms))

/-- `exportRegistry` (main.ts): check the template root, export every
catalog item (one JSON document each), then write the aggregate
`registry.json` manifest last.  The template root stands for the source's
`resolve(dirname, "../../templates")`, whose base is ambient process state. -/
def exportRegistry (fs : FS) (templateRoot outDir : Str) :
    List WriteEvent × Except Str Unit :=
  if existsSync fs templateRoot = false then
    ([], Except.error (str "Missing templates directory: " ++ templateRoot))
  else
    match (exportItemsAcc fs templateRoot outDir listRegistryItems).2 with
    | Except.error e =>
      ((exportItemsAcc fs templateRoot outDir listRegistryItems).1, Except.error e)
    | Except.ok ms =>
      match nodeResolve [outDir, str "registry.json"] with
      | none =>
        ((exportItemsAcc fs templateRoot outDir listRegistryItems).1,
         Except.error (str "unmodelled relative outDir"))
      | some manifestPath =>
        ((exportItemsAcc fs templateRoot outDir listRegistryItems).1 ++
           [(manifestPath,
             WDoc.manifest
               { name := str "chris-lally",
                 homepage := str "https://github.com/ChrisLally/lally-ui",
                 items := ms })],
         Except.ok ())

/-- The empty file system. -/
def emptyFS : FS := { files := [], dirs := [] }

/-- A configuration parser for configurations with no aliases field. -/
def nullParse : Str → ComponentsConfig := fun _ => { aliases := none }

/-- A file system holding only a consumer configuration file at /proj. -/
def c5FS : FS := { files := [(str "/proj/components.json", str "x")], dirs := [] }

/-- A template file system holding every catalog source (with empty
contents) under the template root /t. -/
def c3FS : FS :=
  { files :=
      [ (str "/t/fumadocs/blocks/sdk-layout/index.ts", str ""),
        (str "/t/fumadocs/blocks/sdk-layout/types/sdk-function-page-types.ts", str ""),
        (str "/t/fumadocs/blocks/sdk-layout/sections/sdk-section.tsx", str ""),
        (str "/t/fumadocs/blocks/sdk-layout/interactive/sdk-function-page-interactive.tsx",
          str ""),
        (str "/t/fumadocs/components/mdx/package-manager-tabs.tsx", str ""),
        (str "/t/branding/components/branding/logo-with-badge.tsx", str "") ],
    dirs := [str "/t"] }

/-- The writes a full export over `c3FS` performs. -/
def c3Writes : List WriteEvent := (exportRegistry c3FS (str "/t") (str "/out")).1

/-- A template file system whose template root exists but holds no files. -/
def c4FS : FS := { files := [], dirs := [str "/t"] }

/- ---------------------------------------------------------------------- -/
/- Path lemmas: clean paths are fixed by normalization.                    -/
/- ---------------------------------------------------------------------- -/

theorem splitSlash_ne_nil (s : Str) : splitSlash s ≠ [] := by
  induction s with
  | nil => simp [splitSlash]
  | cons c cs ih =>
    by_cases hc : c = sl
    · simp [splitSlash, hc]
    · cases h : splitSlash cs with
      | nil => exact absurd h ih
      | cons a l => simp [splitSlash, hc, h]

theorem splitSlash_append (x y : Str) :
    splitSlash (x ++ sl :: y) = splitSlash x ++ splitSlash y := by
  induction x with
  | nil => simp [splitSlash]
  | cons c cs ih =>
    by_cases hc : c = sl
    · simp [splitSlash, hc, ih]
    · cases h : splitSlash cs with
      | nil => exact absurd h (splitSlash_ne_nil cs)
      | cons a l =>
        have e2 : splitSlash (cs ++ sl :: y) = a :: (l ++ splitSlash y) := by
          rw [ih, h]; simp
        simp [splitSlash, hc, e2, h]

theorem interSlash_splitSlash (s : Str) : interSlash (splitSlash s) = s := by
  induction s with
  | nil => simp [splitSlash, interSlash]
  | cons c cs ih =>
    by_cases hc : c = sl
    · cases h : splitSlash cs with
      | nil => exact absurd h (splitSlash_ne_nil cs)
      | cons a l =>
        simp only [splitSlash, if_pos hc, interSlash, h] at ih ⊢
        simp [hc, ih]
    · cases h : splitSlash cs with
      | nil => exact absurd h (splitSlash_ne_nil cs)
      | cons a l =>
        cases l with
        | nil =>
          simp only [splitSlash, if_neg hc, h, interSlash] at ih ⊢
          simp [ih]
        | cons b l2 =>
          simp only [splitSlash, if_neg hc, h, interSlash] at ih ⊢
          simp [ih]

theorem normStack_all_clean :
    ∀ segs : List Str, segs.all cleanSegB = true →
      ∀ acc, normStack acc segs = acc.reverse ++ segs := by
  intro segs
  induction segs with
  | nil => intro _ acc; simp [normStack]
  | cons seg rest ih =>
    intro h acc
    simp only [List.all_cons, Bool.and_eq_true] at h
    have hseg : seg ≠ [] ∧ seg ≠ str "." ∧ seg ≠ str ".." := by
      have h1 := h.1
      simp only [cleanSegB, Bool.and_eq_true, Bool.not_eq_true',
        decide_eq_false_iff_not] at h1
      exact ⟨h1.1.1, h1.1.2, h1.2⟩
    have hor : ¬(seg = [] ∨ seg = str ".") := by
      rintro (h1 | h1)
      · exact hseg.1 h1
      · exact hseg.2.1 h1
    rw [normStack, if_neg hor, if_neg hseg.2.2, ih h.2]
    simp

theorem normAbs_clean (p : Str) (h : cleanAbsB p = true) : normAbs p = p := by
  cases p with
  | nil => simp [cleanAbsB] at h
  | cons c cs =>
    simp only [cleanAbsB, Bool.and_eq_true, decide_eq_true_eq] at h
    obtain ⟨hc, hrel⟩ := h
    subst hc
    have hsplit : splitSlash (sl :: cs) = [] :: splitSlash cs := by
      simp [splitSlash]
    have hstack : normStack [] ([] :: splitSlash cs) = splitSlash cs := by
      have h0 : normStack [] ([] :: splitSlash cs) = normStack [] (splitSlash cs) := by
        simp [normStack]
      rw [h0, normStack_all_clean (splitSlash cs) hrel []]
      simp
    obtain ⟨a, l, hss⟩ : ∃ a l, splitSlash cs = a :: l := by
      cases h2 : splitSlash cs with
      | nil => exact absurd h2 (splitSlash_ne_nil cs)
      | cons a l => exact ⟨a, l, rfl⟩
    have hfin : interSlash (a :: l) = cs := by
      rw [← hss, interSlash_splitSlash]
    rw [normAbs, hsplit, hstack, hss]
    show sl :: interSlash (a :: l) = sl :: cs
    rw [hfin]

theorem cleanRel_append (x y : Str) (hx : cleanRelB x = true) (hy : cleanRelB y = true) :
    cleanRelB (x ++ sl :: y) = true := by
  simp only [cleanRelB, splitSlash_append, List.all_append, Bool.and_eq_true]
  exact ⟨hx, hy⟩

theorem cleanAbs_append (b r : Str) (hb : cleanAbsB b = true) (hr : cleanRelB r = true) :
    cleanAbsB (b ++ sl :: r) = true := by
  cases b with
  | nil => simp [cleanAbsB] at hb
  | cons c cs =>
    simp only [cleanAbsB, Bool.and_eq_true, decide_eq_true_eq] at hb
    obtain ⟨hc, hrel⟩ := hb
    subst hc
    simp only [List.cons_append, cleanAbsB, Bool.and_eq_true, decide_eq_true_eq]
    exact ⟨trivial, cleanRel_append cs r hrel hr⟩

theorem isAbs_false_of_cleanRel (r : Str) (h : cleanRelB r = true) : isAbsL r = false := by
  cases r with
  | nil => simp [isAbsL]
  | cons c cs =>
    by_cases hc : c = sl
    · subst hc
      have : splitSlash (sl :: cs) = [] :: splitSlash cs := by simp [splitSlash]
      rw [cleanRelB, this] at h
      simp [cleanSegB] at h
    · simp [isAbsL, hc]

theorem isAbs_of_cleanAbs (b : Str) (h : cleanAbsB b = true) : isAbsL b = true := by
  cases b with
  | nil => simp [cleanAbsB] at h
  | cons c cs =>
    simp only [cleanAbsB, Bool.and_eq_true, decide_eq_true_eq] at h
    simp [isAbsL, h.1]

theorem nodeResolve_join2 (b r : Str) (hb : cleanAbsB b = true) (hr : cleanRelB r = true) :
    nodeResolve [b, r] = some (b ++ sl :: r) := by
  have habs : isAbsL b = true := isAbs_of_cleanAbs b hb
  have hrel : isAbsL r = false := isAbs_false_of_cleanRel r hr
  have htake : List.takeWhile (fun s => !isAbsL s) [r, b] = [r] := by
    simp [List.takeWhile, hrel, habs]
  rw [nodeResolve]
  simp only [List.reverse_cons, List.reverse_nil, List.nil_append, List.cons_append,
    htake, List.length_cons, List.length_nil]
  have hdrop : List.drop 1 [r, b] = [b] := rfl
  rw [hdrop]
  have hinter : interSlash [b, r] = b ++ sl :: r := by simp [interSlash]
  show some (normAbs (interSlash [b, r])) = some (b ++ sl :: r)
  rw [hinter, normAbs_clean _ (cleanAbs_append b r hb hr)]

theorem nodeResolve_join3 (b r1 r2 : Str) (hb : cleanAbsB b = true)
    (h1 : cleanRelB r1 = true) (h2 : cleanRelB r2 = true) :
    nodeResolve [b, r1, r2] = some (b ++ sl :: (r1 ++ sl :: r2)) := by
  have habs : isAbsL b = true := isAbs_of_cleanAbs b hb
  have hrel1 : isAbsL r1 = false := isAbs_false_of_cleanRel r1 h1
  have hrel2 : isAbsL r2 = false := isAbs_false_of_cleanRel r2 h2
  have htake : List.takeWhile (fun s => !isAbsL s) [r2, r1, b] = [r2, r1] := by
    simp [List.takeWhile, hrel1, hrel2, habs]
  rw [nodeResolve]
  simp only [List.reverse_cons, List.reverse_nil, List.nil_append, List.cons_append,
    htake, List.length_cons, List.length_nil]
  have hdrop : List.drop 2 [r2, r1, b] = [b] := rfl
  rw [hdrop]
  have hinter : interSlash [b, r1, r2] = b ++ sl :: (r1 ++ sl :: r2) := by
    simp [interSlash]
  show some (normAbs (interSlash [b, r1, r2])) = some (b ++ sl :: (r1 ++ sl :: r2))
  rw [hinter,
    normAbs_clean _ (cleanAbs_append b (r1 ++ sl :: r2) hb (cleanRel_append r1 r2 h1 h2))]

theorem drop_takeWhile_ne_nil (q : Str → Bool) (L : List Str) (x : Str)
    (hx : x ∈ L) (hqx : q x = false) :
    L.drop (L.takeWhile q).length ≠ [] := by
  intro hcon
  have hle : (L.takeWhile q).length ≤ L.length := (List.takeWhile_prefix q).length_le
  have hlen := List.length_drop (L.takeWhile q).length L
  rw [hcon] at hlen
  simp only [List.length_nil] at hlen
  have heq : (L.takeWhile q).length = L.length := by omega
  have hfull : L.takeWhile q = L := (List.takeWhile_prefix q).eq_of_length heq
  have hq : q x = true := List.mem_takeWhile_imp (by rw [hfull]; exact hx)
  rw [hqx] at hq
  exact Bool.noConfusion hq

theorem nodeResolve_isSome_of_abs (b : Str) (rs : List Str) (hb : isAbsL b = true) :
    ∃ p, nodeResolve (b :: rs) = some p := by
  have hmem : b ∈ (b :: rs).reverse := List.mem_reverse.mpr (List.mem_cons_self b rs)
  have hne := drop_takeWhile_ne_nil (fun s => !isAbsL s) ((b :: rs).reverse) b hmem
    (by simp [hb])
  simp only [nodeResolve]
  cases hd : ((b :: rs).reverse).drop
      (((b :: rs).reverse).takeWhile (fun s => !isAbsL s)).length with
  | nil => exact absurd hd hne
  | cons a l =>
    exact ⟨_, rfl⟩

/- ---------------------------------------------------------------------- -/
/- Claim C7: file classification.                                          -/
/- ---------------------------------------------------------------------- -/

/-- Claim C7 (counterexample): the claim reads a path "containing or
beginning with hooks/" as a hook; `myhooks/use-x.ts` contains the substring
`hooks/`, yet the code checks only `/hooks/` (with a leading slash) or the
`hooks/` prefix, so it classifies the path as a component. -/
theorem fileTypeForTarget_claim_counterexample :
    containsL (str "hooks/") (str "myhooks/use-x.ts") = true ∧
    startsWithL (str "app/") (str "myhooks/use-x.ts") = false ∧
    fileTypeForTargetClaim (str "myhooks/use-x.ts") = str "registry:hook" ∧
    fileTypeForTarget (str "myhooks/use-x.ts") = str "registry:component" := by
  decide

/-- Claim C7 (amended): the exporter classifies target paths by four rules
in fixed priority order — `app/` prefix is a page; else containing `/hooks/`
or beginning with `hooks/` is a hook; else containing `/lib/` or `/types/`
or beginning with `lib/` or `types/` is a library; else a component — and in
particular the four exemplar paths classify as the claim lists, with the
priority order visible on `app/hooks/use-x.ts`. -/
theorem fileTypeForTarget_spec :
    (∀ target, fileTypeForTarget target = fileTypeForTargetAmended target) ∧
    fileTypeForTarget (str "app/page.tsx") = str "registry:page" ∧
    fileTypeForTarget (str "hooks/use-foo.ts") = str "registry:hook" ∧
    fileTypeForTarget (str "lib/utils.ts") = str "registry:lib" ∧
    fileTypeForTarget (str "components/button.tsx") = str "registry:component" ∧
    fileTypeForTarget (str "app/hooks/use-x.ts") = str "registry:page" := by
  refine ⟨fun target => rfl, ?_, ?_, ?_, ?_, ?_⟩ <;> decide

/- ---------------------------------------------------------------------- -/
/- Claim C8: catalog list and lookup.                                      -/
/- ---------------------------------------------------------------------- -/

/-- Claim C8: `list()` returns the items in a stable order with no two
items sharing an id; `find(id)` returns the unique item whose id equals the
argument when one exists and otherwise an absent value, never an error; in
particular `find("branding/logo-with-badge")` is that item and
`find("nonexistent/thing")` is absent. -/
theorem findRegistryItem_spec :
    listRegistryItems = [fumadocsSdkLayoutItem, brandingLogoWithBadgeItem] ∧
    (listRegistryItems.map (fun item => item.id)).Nodup ∧
    (∀ id item, item ∈ listRegistryItems → item.id = id →
      findRegistryItem id = some item) ∧
    (∀ id, (∀ item, item ∈ listRegistryItems → ¬item.id = id) →
      findRegistryItem id = none) ∧
    findRegistryItem (str "branding/logo-with-badge") = some brandingLogoWithBadgeItem ∧
    findRegistryItem (str "nonexistent/thing") = none := by
  refine ⟨rfl, by decide, ?_, ?_, by decide, by decide⟩
  · intro id item hmem hid
    simp only [listRegistryItems, registryItems, List.mem_cons,
      List.not_mem_nil, or_false] at hmem
    rcases hmem with h | h <;> subst h <;> subst hid <;> decide
  · intro id h
    have h1 := h fumadocsSdkLayoutItem (by simp [listRegistryItems, registryItems])
    have h2 := h brandingLogoWithBadgeItem (by simp [listRegistryItems, registryItems])
    simp [findRegistryItem, registryItems, List.find?, h1, h2]

/-- Witness for claim C8 at a concrete id. -/
theorem findRegistryItem_spec_witness :
    findRegistryItem (str "branding/logo-with-badge") = some brandingLogoWithBadgeItem :=
  findRegistryItem_spec.2.2.1 (str "branding/logo-with-badge") brandingLogoWithBadgeItem
    (by decide) (by decide)

/- ---------------------------------------------------------------------- -/
/- Claims C1 and C10: the import rewriter.                                 -/
/- ---------------------------------------------------------------------- -/

theorem patternOf_ne_nil (toks : List RTok) : patternOf toks ≠ [] := by
  intro h
  rw [patternOf] at h
  have h2 := (List.append_eq_nil.mp h).2
  exact List.noConfusion h2

theorem matchToks_some_length :
    ∀ (pat : List RTok) (s rest : Str), matchToks pat s = some rest →
      s.length = pat.length + rest.length := by
  intro pat
  induction pat with
  | nil =>
    intro s rest h
    rw [matchToks] at h
    rw [Option.some.inj h]
    simp
  | cons t ts ih =>
    intro s rest h
    cases s with
    | nil => rw [matchToks] at h; exact Option.noConfusion h
    | cons c cs =>
      rw [matchToks] at h
      by_cases ht : tokMatches t c = true
      · rw [if_pos ht] at h
        have hlen := ih cs rest h
        simp only [List.length_cons, hlen]
        omega
      · rw [if_neg ht] at h
        exact Option.noConfusion h

theorem replaceScan_rewrites (pat : List RTok) (repl : Str) (hpat : pat ≠ []) :
    ∀ fuel s, s.length ≤ fuel → Rewrites pat repl s (replaceScan pat repl fuel s) := by
  intro fuel
  induction fuel with
  | zero =>
    intro s hs
    have h0 : s = [] := List.length_eq_zero.mp (Nat.le_zero.mp hs)
    subst h0
    exact Rewrites.nil
  | succ f ih =>
    intro s hs
    cases s with
    | nil => exact Rewrites.nil
    | cons c cs =>
      cases hm : matchToks pat (c :: cs) with
      | none =>
        have heq : replaceScan pat repl (f + 1) (c :: cs) =
            c :: replaceScan pat repl f cs := by
          simp only [replaceScan, hm]
        rw [heq]
        have hcs : cs.length ≤ f := by
          simp only [List.length_cons] at hs
          omega
        exact Rewrites.skip c cs _ hm (ih cs hcs)
      | some rest =>
        have heq : replaceScan pat repl (f + 1) (c :: cs) =
            repl ++ replaceScan pat repl f rest := by
          simp only [replaceScan, hm]
        rw [heq]
        have hlen := matchToks_some_length pat (c :: cs) rest hm
        have hp1 : 1 ≤ pat.length := by
          cases pat with
          | nil => exact absurd rfl hpat
          | cons a l => simp
        have hrest : rest.length ≤ f := by
          simp only [List.length_cons] at hs hlen
          omega
        exact Rewrites.replace (c :: cs) rest _ hm (ih rest hrest)

theorem applyOne_inv (content k v mid : Str) (h : applyOne content k v = some mid) :
    ∃ toks, compileKey k = some toks ∧
      mid = replaceScan (patternOf toks) (str "from " ++ (sqc :: (v ++ [sqc])))
        content.length content := by
  rw [applyOne] at h
  split at h
  · exact Option.noConfusion h
  · rename_i toks hck
    split at h
    · exact Option.noConfusion h
    · exact ⟨toks, hck, (Option.some.inj h).symm⟩

/-- Claim C1 (code evaluated at the failing input): the mapping key is
interpolated into the regex source unescaped, so a dot in the key acts as
the regex wildcard.  With mapping key `./lib/cn`, content importing from
`x/lib/cn` — which nowhere contains the key as a literal substring — is
nonetheless rewritten; the claim requires such content to be left
unchanged. -/
theorem applyImportReplacements_unescaped_dot :
    applyImportReplacements
        (str "import x from " ++ (sqc :: (str "x/lib/cn" ++ (sqc :: str ";"))))
        (some [(str "./lib/cn", str "@/lib/utils")])
      = some (str "import x from " ++ (sqc :: (str "@/lib/utils" ++ (sqc :: str ";")))) ∧
    containsL (str "./lib/cn")
        (str "import x from " ++ (sqc :: (str "x/lib/cn" ++ (sqc :: str ";")))) = false := by
  decide

/-- Claim C10: for every source text and every import mapping on which the
rewriter succeeds, the output decomposes, entry by entry, as the text's
characters copied verbatim with every matched import statement replaced by
`from 'VALUE'` — the replacement specifier always between single quotes,
even though the matched original's quote class accepts single or double
quotes, and unmatched text (with its quoting) untouched. -/
theorem applyImportReplacements_single_quotes :
    ∀ (entries : List (Str × Str)) (content out : Str),
      applyImportReplacements content (some entries) = some out →
      RewriteSeq entries content out := by
  intro entries
  induction entries with
  | nil =>
    intro content out h
    simp only [applyImportReplacements, List.foldlM_nil] at h
    rw [← Option.some.inj h]
    exact RewriteSeq.nil content
  | cons kv rest ih =>
    obtain ⟨k, v⟩ := kv
    intro content out h
    simp only [applyImportReplacements, List.foldlM_cons] at h
    cases h1 : applyOne content k v with
    | none =>
      rw [h1] at h
      simp only [Option.bind_eq_bind, Option.none_bind] at h
      exact Option.noConfusion h
    | some mid =>
      rw [h1] at h
      simp only [Option.bind_eq_bind, Option.some_bind] at h
      obtain ⟨toks, hck, hmid⟩ := applyOne_inv content k v mid h1
      have hrw : Rewrites (patternOf toks)
          (str "from " ++ (sqc :: (v ++ [sqc]))) content mid := by
        rw [hmid]
        exact replaceScan_rewrites (patternOf toks) _ (patternOf_ne_nil toks)
          content.length content le_rfl
      exact RewriteSeq.cons k v rest content mid out toks hck hrw (ih mid out h)

/- ---------------------------------------------------------------------- -/
/- Claim C2: the file materializer.                                        -/
/- ---------------------------------------------------------------------- -/

/-- Claim C2: on a state with nothing at `path`, `writeIfMissing(path, c1)`
creates the intermediate directories, writes `c1` and reports `created`; a
subsequent `writeIfMissing(path, c2)` reports `skipped`, performs no write,
and the file still holds `c1` even when `c2` differs.  The skip case is a
normal result, not an error. -/
theorem writeIfMissing_spec (fs : FS) (path c1 c2 : Str)
    (h : existsSync fs path = false) :
    (writeIfMissing fs path c1).2 = WriteResult.created ∧
    lookupFile (writeIfMissing fs path c1).1 path = some c1 ∧
    (∀ d, d ∈ ancestors (dirname path).length (dirname path) →
      d ∈ (writeIfMissing fs path c1).1.dirs) ∧
    (writeIfMissing (writeIfMissing fs path c1).1 path c2).2 = WriteResult.skipped ∧
    (writeIfMissing (writeIfMissing fs path c1).1 path c2).1 = (writeIfMissing fs path c1).1 ∧
    lookupFile (writeIfMissing (writeIfMissing fs path c1).1 path c2).1 path = some c1 := by
  have e1 : writeIfMissing fs path c1 =
      ({ files := (path, c1) :: (mkdirp fs (dirname path)).files,
         dirs := (mkdirp fs (dirname path)).dirs }, WriteResult.created) := by
    rw [writeIfMissing, if_neg (by simp [h])]
  have hlook : lookupFile
      { files := (path, c1) :: (mkdirp fs (dirname path)).files,
        dirs := (mkdirp fs (dirname path)).dirs } path = some c1 := by
    simp [lookupFile, List.find?]
  have hex : existsSync
      { files := (path, c1) :: (mkdirp fs (dirname path)).files,
        dirs := (mkdirp fs (dirname path)).dirs } path = true := by
    simp [existsSync, hlook]
  have e2 : writeIfMissing
      { files := (path, c1) :: (mkdirp fs (dirname path)).files,
        dirs := (mkdirp fs (dirname path)).dirs } path c2 =
      ({ files := (path, c1) :: (mkdirp fs (dirname path)).files,
         dirs := (mkdirp fs (dirname path)).dirs }, WriteResult.skipped) := by
    rw [writeIfMissing, if_pos hex]
  refine ⟨by rw [e1], by rw [e1]; exact hlook, ?_, by rw [e1, e2], by rw [e1, e2],
    by rw [e1, e2]; exact hlook⟩
  intro d hd
  rw [e1]
  simp only [mkdirp, List.mem_append]
  exact Or.inl hd

/-- Witness for claim C2 on the empty file system. -/
theorem writeIfMissing_spec_witness :
    (writeIfMissing emptyFS (str "a/b.txt") (str "one")).2 = WriteResult.created ∧
    lookupFile (writeIfMissing emptyFS (str "a/b.txt") (str "one")).1 (str "a/b.txt") =
      some (str "one") ∧
    (writeIfMissing (writeIfMissing emptyFS (str "a/b.txt") (str "one")).1
      (str "a/b.txt") (str "two")).2 = WriteResult.skipped ∧
    (writeIfMissing (writeIfMissing emptyFS (str "a/b.txt") (str "one")).1
      (str "a/b.txt") (str "two")).1 =
      (writeIfMissing emptyFS (str "a/b.txt") (str "one")).1 ∧
    lookupFile (writeIfMissing (writeIfMissing emptyFS (str "a/b.txt") (str "one")).1
      (str "a/b.txt") (str "two")).1 (str "a/b.txt") = some (str "one") := by
  have h := writeIfMissing_spec emptyFS (str "a/b.txt") (str "one") (str "two") (by decide)
  exact ⟨h.1, h.2.1, h.2.2.2.1, h.2.2.2.2.1, h.2.2.2.2.2⟩

/- ---------------------------------------------------------------------- -/
/- Claims C9 and C5: the alias resolver.                                   -/
/- ---------------------------------------------------------------------- -/

/-- Claim C9: when the configuration file is absent from the working
directory, `readAliasContext` fails with the missing-configuration error,
whose message carries the instruction to run the prerequisite init step,
and no aliases are read or resolved. -/
theorem readAliasContext_missing_config (parseCfg : Str → ComponentsConfig)
    (fs : FS) (cwd : Str) (hcwd : cleanAbsB cwd = true)
    (hmiss : existsSync fs (cwd ++ sl :: str "components.json") = false) :
    readAliasContext parseCfg fs cwd =
      Except.error
        (str "Missing components.json in current directory. Run shadcn init first.") := by
  have hres : nodeResolve [cwd, str "components.json"] =
      some (cwd ++ sl :: str "components.json") :=
    nodeResolve_join2 cwd (str "components.json") hcwd (by decide)
  simp [readAliasContext, hres, hmiss]

/-- Witness for claim C9 on the empty file system. -/
theorem readAliasContext_missing_config_witness :
    readAliasContext nullParse emptyFS (str "/proj") =
      Except.error
        (str "Missing components.json in current directory. Run shadcn init first.") :=
  readAliasContext_missing_config nullParse emptyFS (str "/proj") (by decide) (by decide)

/-- Claim C5: with the configuration file present, each of the three aliases
defaults independently — a missing `aliases` field (or missing individual
field) yields `@/components`, `@/components/ui`, `@/lib/utils` respectively,
and a present field overrides only its own default. -/
theorem readAliasContext_defaults (parseCfg : Str → ComponentsConfig)
    (fs : FS) (cwd raw : Str) (hcwd : cleanAbsB cwd = true)
    (hfile : lookupFile fs (cwd ++ sl :: str "components.json") = some raw) :
    (resolveAliasPath
      (((parseCfg raw).aliases.bind AliasesCfg.components).getD (str "@/components"))
      cwd).isSome = true ∧
    ∀ root,
      resolveAliasPath
        (((parseCfg raw).aliases.bind AliasesCfg.components).getD (str "@/components"))
        cwd = some root →
      readAliasContext parseCfg fs cwd =
        Except.ok
          ({ componentsAlias :=
               ((parseCfg raw).aliases.bind AliasesCfg.components).getD (str "@/components"),
             uiAlias :=
               ((parseCfg raw).aliases.bind AliasesCfg.ui).getD (str "@/components/ui"),
             utilsAlias :=
               ((parseCfg raw).aliases.bind AliasesCfg.utils).getD (str "@/lib/utils") },
           root) := by
  have hres : nodeResolve [cwd, str "components.json"] =
      some (cwd ++ sl :: str "components.json") :=
    nodeResolve_join2 cwd (str "components.json") hcwd (by decide)
  have hex : existsSync fs (cwd ++ sl :: str "components.json") = true := by
    simp [existsSync, hfile]
  constructor
  · obtain ⟨r, hr⟩ : ∃ r,
        resolveAliasPath
          (((parseCfg raw).aliases.bind AliasesCfg.components).getD (str "@/components"))
          cwd = some r := by
      rw [resolveAliasPath]
      split
      · exact nodeResolve_isSome_of_abs cwd _ (isAbs_of_cleanAbs cwd hcwd)
      · split <;> exact nodeResolve_isSome_of_abs cwd _ (isAbs_of_cleanAbs cwd hcwd)
    simp [hr]
  · intro root hroot
    simp [readAliasContext, hres, hex, hfile, hroot]

/-- Witness for claim C5: a parser yielding no aliases field resolves to the
three documented defaults. -/
theorem readAliasContext_defaults_witness :
    readAliasContext nullParse c5FS (str "/proj") =
      Except.ok
        ({ componentsAlias := str "@/components",
           uiAlias := str "@/components/ui",
           utilsAlias := str "@/lib/utils" }, str "/proj/src/components") :=
  ((readAliasContext_defaults nullParse c5FS (str "/proj") (str "x")
      (by decide) (by decide)).2 (str "/proj/src/components") (by decide)).trans
    (by rfl)

/- ---------------------------------------------------------------------- -/
/- Claim C6: alias path resolution.                                        -/
/- ---------------------------------------------------------------------- -/

theorem nodeResolve_snd_abs (b r : Str) (hr : cleanAbsB r = true) :
    nodeResolve [b, r] = some r := by
  have habs : isAbsL r = true := isAbs_of_cleanAbs r hr
  rw [nodeResolve]
  have htake : List.takeWhile (fun s => !isAbsL s) [r, b] = [] := by
    simp [List.takeWhile, habs]
  simp only [List.reverse_cons, List.reverse_nil, List.nil_append, List.cons_append,
    htake, List.length_nil, List.drop_zero]
  show some (normAbs (interSlash [r])) = some r
  rw [show interSlash [r] = r from rfl, normAbs_clean r hr]

/-- Claim C6 (counterexample): for the alias `@//tmp` and working directory
`/work`, Node resolution returns `/tmp` (the remainder is itself absolute),
not the claimed `<cwd>/src/<remainder>` = `/work/src//tmp`. -/
theorem resolveAliasPath_claim_counterexample :
    resolveAliasPath (str "@//tmp") (str "/work") = some (str "/tmp") ∧
    some (str "/tmp") ≠ some (str "/work/src//tmp") := by
  decide

/-- Claim C6 (amended): under a clean absolute working directory, an alias
beginning with `@/` whose remainder is a clean relative path resolves to
`<cwd>/src/<remainder>`; any other alias resolves relative to the working
directory — a clean relative alias to `<cwd>/<alias>`, and a clean absolute
alias to itself. -/
theorem resolveAliasPath_spec (aliasStr cwd : Str) (hcwd : cleanAbsB cwd = true) :
    (startsWithL (str "@/") aliasStr = true → cleanRelB (aliasStr.drop 2) = true →
      resolveAliasPath aliasStr cwd =
        some (cwd ++ sl :: (str "src" ++ sl :: aliasStr.drop 2))) ∧
    (startsWithL (str "@/") aliasStr = false → cleanRelB aliasStr = true →
      resolveAliasPath aliasStr cwd = some (cwd ++ sl :: aliasStr)) ∧
    (startsWithL (str "@/") aliasStr = false → cleanAbsB aliasStr = true →
      resolveAliasPath aliasStr cwd = some aliasStr) := by
  refine ⟨?_, ?_, ?_⟩
  · intro h1 h2
    rw [resolveAliasPath, if_pos h1]
    exact nodeResolve_join3 cwd (str "src") (aliasStr.drop 2) hcwd (by decide) h2
  · intro h1 h2
    rw [resolveAliasPath, if_neg (by simp [h1])]
    split
    · exact nodeResolve_join2 cwd aliasStr hcwd h2
    · exact nodeResolve_join2 cwd aliasStr hcwd h2
  · intro h1 h2
    rw [resolveAliasPath, if_neg (by simp [h1])]
    split
    · exact nodeResolve_snd_abs cwd aliasStr h2
    · exact nodeResolve_snd_abs cwd aliasStr h2

/-- Witness for claim C6 (amended) at a concrete alias and directory. -/
theorem resolveAliasPath_spec_witness :
    resolveAliasPath (str "@/components") (str "/home/app") =
      some (str "/home/app/src/components") :=
  ((resolveAliasPath_spec (str "@/components") (str "/home/app") (by decide)).1
    (by decide) (by decide)).trans (by decide)

/- ---------------------------------------------------------------------- -/
/- Claims C3 and C4: the registry exporter.                                -/
/- ---------------------------------------------------------------------- -/

theorem readTemplateFiles_ok_sources (fs : FS) (tRoot slug : Str) :
    ∀ files res, readTemplateFiles fs tRoot slug files = Except.ok res →
      ∀ f, f ∈ files →
        ∃ p, nodeResolve [tRoot, f.source] = some p ∧ existsSync fs p = true := by
  intro files
  induction files with
  | nil => intro res _ f hf; simp at hf
  | cons f0 rest ih =>
    intro res hok f hf
    rw [readTemplateFiles] at hok
    split at hok
    · exact Except.noConfusion hok
    · rename_i sp hnr
      split at hok
      · exact Except.noConfusion hok
      · rename_i hex
        have hex2 : existsSync fs sp = true := by
          cases h2 : existsSync fs sp
          · exact absurd h2 hex
          · rfl
        split at hok
        · exact Except.noConfusion hok
        · split at hok
          · exact Except.noConfusion hok
          · split at hok
            · exact Except.noConfusion hok
            · rename_i files2 hrec
              rcases List.mem_cons.mp hf with h | h
              · subst h; exact ⟨sp, hnr, hex2⟩
              · exact ih files2 hrec f h

theorem exportItemsAcc_ok_reads (fs : FS) (tRoot outDir : Str) :
    ∀ items ws ms, exportItemsAcc fs tRoot outDir items = (ws, Except.ok ms) →
      ∀ item, item ∈ items →
        ∃ res, readTemplateFiles fs tRoot (slugForItem item) item.files = Except.ok res := by
  intro items
  induction items with
  | nil => intro ws ms _ item hit; simp at hit
  | cons it0 rest ih =>
    intro ws ms hok item hit
    rw [exportItemsAcc] at hok
    split at hok
    · rename_i e herr
      exact absurd (congrArg Prod.snd hok) (by simp)
    · rename_i files hread
      split at hok
      · exact absurd (congrArg Prod.snd hok) (by simp)
      · rename_i ip hip
        rcases List.mem_cons.mp hit with h | h
        · subst h; exact ⟨files, hread⟩
        · have hsnd : (exportItemsAcc fs tRoot outDir rest).2.map
              (fun ms => mkManifestItem it0 files :: ms) = Except.ok ms :=
            congrArg Prod.snd hok
          cases hr : (exportItemsAcc fs tRoot outDir rest).2 with
          | error e => rw [hr] at hsnd; simp [Except.map] at hsnd
          | ok ms0 =>
            exact ih (exportItemsAcc fs tRoot outDir rest).1 ms0
              (by rw [← hr]) item h

theorem exportItemsAcc_ok_struct (fs : FS) (tRoot outDir : Str)
    (houtDir : cleanAbsB outDir = true) :
    ∀ items ws ms,
      (∀ it, it ∈ items → cleanRelB (slugForItem it ++ str ".json") = true) →
      exportItemsAcc fs tRoot outDir items = (ws, Except.ok ms) →
      ws.map Prod.fst =
        items.map (fun it => outDir ++ sl :: (slugForItem it ++ str ".json")) ∧
      (∀ ev, ev ∈ ws → ∃ d, ev.2 = WDoc.item d) ∧
      (∀ mi, mi ∈ ms → ∃ d,
        (outDir ++ sl :: (mi.name ++ str ".json"), WDoc.item d) ∈ ws ∧
        d.name = mi.name ∧ mi.files = d.files.map toManifestFile) := by
  intro items
  induction items with
  | nil =>
    intro ws ms _ hok
    have h1 : ([] : List WriteEvent) = ws := congrArg Prod.fst hok
    have h2 : (Except.ok [] : Except Str (List ManifestItem)) = Except.ok ms :=
      congrArg Prod.snd hok
    have hms : ms = [] := (Except.ok.inj h2).symm
    subst hms
    rw [← h1]
    simp
  | cons it0 rest ih =>
    intro ws ms hclean hok
    rw [exportItemsAcc] at hok
    split at hok
    · rename_i e herr
      exact absurd (congrArg Prod.snd hok) (by simp)
    · rename_i files hread
      split at hok
      · exact absurd (congrArg Prod.snd hok) (by simp)
      · rename_i ip hip
        have hip2 : ip = outDir ++ sl :: (slugForItem it0 ++ str ".json") := by
          have hj := nodeResolve_join2 outDir (slugForItem it0 ++ str ".json") houtDir
            (hclean it0 (List.mem_cons_self it0 rest))
          rw [hj] at hip
          exact (Option.some.inj hip).symm
        cases hr : (exportItemsAcc fs tRoot outDir rest).2 with
        | error e =>
          have hsnd : (exportItemsAcc fs tRoot outDir rest).2.map
              (fun ms => mkManifestItem it0 files :: ms) = Except.ok ms :=
            congrArg Prod.snd hok
          rw [hr] at hsnd
          simp [Except.map] at hsnd
        | ok ms0 =>
          have hrec : exportItemsAcc fs tRoot outDir rest =
              ((exportItemsAcc fs tRoot outDir rest).1, Except.ok ms0) := by
            rw [← hr]
          obtain ⟨ha, hb, hc⟩ := ih (exportItemsAcc fs tRoot outDir rest).1 ms0
            (fun it hi => hclean it (List.mem_cons_of_mem it0 hi)) hrec
          have hws : ws = (ip, WDoc.item (mkExportedItem it0 files)) ::
              (exportItemsAcc fs tRoot outDir rest).1 := (congrArg Prod.fst hok).symm
          have hmsE : (exportItemsAcc fs tRoot outDir rest).2.map
              (fun ms => mkManifestItem it0 files :: ms) = Except.ok ms :=
            congrArg Prod.snd hok
          rw [hr] at hmsE
          simp only [Except.map] at hmsE
          have hms2 : ms = mkManifestItem it0 files :: ms0 := (Except.ok.inj hmsE).symm
          subst hws
          subst hms2
          refine ⟨?_, ?_, ?_⟩
          · simp only [List.map_cons, ha, hip2]
          · intro ev hev
            rcases List.mem_cons.mp hev with h | h
            · subst h; exact ⟨mkExportedItem it0 files, rfl⟩
            · exact hb ev h
          · intro mi hmi
            rcases List.mem_cons.mp hmi with h | h
            · subst h
              refine ⟨mkExportedItem it0 files, ?_, rfl, rfl⟩
              rw [show (mkManifestItem it0 files).name = slugForItem it0 from rfl, ← hip2]
              exact List.mem_cons_self _ _
            · obtain ⟨d, hd1, hd2, hd3⟩ := hc mi h
              exact ⟨d, List.mem_cons_of_mem _ hd1, hd2, hd3⟩

theorem exportItemsAcc_fst_paths (fs : FS) (tRoot outDir : Str)
    (houtDir : cleanAbsB outDir = true) :
    ∀ items,
      (∀ it, it ∈ items → cleanRelB (slugForItem it ++ str ".json") = true) →
      ∀ ev, ev ∈ (exportItemsAcc fs tRoot outDir items).1 →
        ∃ it, it ∈ items ∧ ev.1 = outDir ++ sl :: (slugForItem it ++ str ".json") := by
  intro items
  induction items with
  | nil => intro _ ev hev; simp [exportItemsAcc] at hev
  | cons it0 rest ih =>
    intro hclean ev hev
    rw [exportItemsAcc] at hev
    split at hev
    · simp at hev
    · rename_i files hread
      split at hev
      · simp at hev
      · rename_i ip hip
        rcases List.mem_cons.mp hev with h | h
        · subst h
          refine ⟨it0, List.mem_cons_self _ _, ?_⟩
          have hj := nodeResolve_join2 outDir (slugForItem it0 ++ str ".json") houtDir
            (hclean it0 (List.mem_cons_self _ _))
          rw [hj] at hip
          exact (Option.some.inj hip).symm
        · obtain ⟨it, hi, he⟩ := ih
            (fun it hi => hclean it (List.mem_cons_of_mem _ hi)) ev h
          exact ⟨it, List.mem_cons_of_mem _ hi, he⟩

theorem catalog_slugs_clean :
    ∀ it, it ∈ listRegistryItems →
      cleanRelB (slugForItem it ++ str ".json") = true := by
  intro it hit
  simp only [listRegistryItems, registryItems, List.mem_cons,
    List.not_mem_nil, or_false] at hit
  rcases hit with h | h <;> subst h <;> decide

/-- Claim C3: a successful export writes exactly one JSON document per
catalog item, in catalog order, followed by the aggregate `registry.json`
manifest last; and every file path listed under a manifest entry's files is
present in the corresponding per-item document's files. -/
theorem exportRegistry_spec (fs : FS) (tRoot outDir : Str) (ws : List WriteEvent)
    (houtDir : cleanAbsB outDir = true)
    (hok : exportRegistry fs tRoot outDir = (ws, Except.ok ())) :
    ws.map Prod.fst =
      listRegistryItems.map (fun it => outDir ++ sl :: (slugForItem it ++ str ".json")) ++
        [outDir ++ sl :: str "registry.json"] ∧
    (∀ p m, (p, WDoc.manifest m) ∈ ws →
      p = outDir ++ sl :: str "registry.json" ∧
      ∀ mi, mi ∈ m.items → ∀ mf, mf ∈ mi.files →
        ∃ d, (outDir ++ sl :: (mi.name ++ str ".json"), WDoc.item d) ∈ ws ∧
          d.name = mi.name ∧ ∃ ef, ef ∈ d.files ∧ ef.path = mf.path) := by
  rw [exportRegistry] at hok
  split at hok
  · exact absurd (congrArg Prod.snd hok) (by simp)
  · rename_i htr
    split at hok
    · exact absurd (congrArg Prod.snd hok) (by simp)
    · rename_i ms hms
      have hmp : nodeResolve [outDir, str "registry.json"] =
          some (outDir ++ sl :: str "registry.json") :=
        nodeResolve_join2 outDir (str "registry.json") houtDir (by decide)
      split at hok
      · rename_i hnone
        rw [hmp] at hnone
        exact Option.noConfusion hnone
      · rename_i mp hmp2
        have hmpe : mp = outDir ++ sl :: str "registry.json" := by
          rw [hmp] at hmp2
          exact (Option.some.inj hmp2).symm
        subst hmpe
        have hws : ws = (exportItemsAcc fs tRoot outDir listRegistryItems).1 ++
            [(outDir ++ sl :: str "registry.json", WDoc.manifest
              { name := str "chris-lally",
                homepage := str "https://github.com/ChrisLally/lally-ui",
                items := ms })] := (congrArg Prod.fst hok).symm
        have hrec : exportItemsAcc fs tRoot outDir listRegistryItems =
            ((exportItemsAcc fs tRoot outDir listRegistryItems).1, Except.ok ms) := by
          rw [← hms]
        obtain ⟨ha, hb, hc⟩ := exportItemsAcc_ok_struct fs tRoot outDir houtDir
          listRegistryItems _ ms catalog_slugs_clean hrec
        subst hws
        constructor
        · rw [List.map_append, ha]
          rfl
        · intro p m hpm
          rcases List.mem_append.mp hpm with h | h
          · obtain ⟨d, hd⟩ := hb _ h
            exact absurd hd (by simp)
          · have hsing := List.mem_singleton.mp h
            have hp : p = outDir ++ sl :: str "registry.json" :=
              congrArg Prod.fst hsing
            have hm : WDoc.manifest m = WDoc.manifest
                { name := str "chris-lally",
                  homepage := str "https://github.com/ChrisLally/lally-ui",
                  items := ms } := congrArg Prod.snd hsing
            have hm2 : m =
                { name := str "chris-lally",
                  homepage := str "https://github.com/ChrisLally/lally-ui",
                  items := ms } := by
              injection hm
            refine ⟨hp, ?_⟩
            intro mi hmi mf hmf
            have hmi2 : mi ∈ ms := by
              rw [hm2] at hmi
              exact hmi
            obtain ⟨d, hd1, hd2, hd3⟩ := hc mi hmi2
            refine ⟨d, List.mem_append_left _ hd1, hd2, ?_⟩
            rw [hd3] at hmf
            obtain ⟨ef, hef, hefe⟩ := List.mem_map.mp hmf
            exact ⟨ef, hef, by rw [← hefe]; rfl⟩

/-- Witness for claim C3: over a concrete template file system the export
succeeds and the write sequence is the per-item documents in catalog order
followed by the aggregate manifest. -/
theorem exportRegistry_spec_witness :
    c3Writes.map Prod.fst =
      listRegistryItems.map
        (fun it => str "/out" ++ sl :: (slugForItem it ++ str ".json")) ++
        [str "/out" ++ sl :: str "registry.json"] :=
  (exportRegistry_spec c3FS (str "/t") (str "/out") c3Writes (by decide) (by rfl)).1

/-- Claim C4: when some catalog file's source does not resolve to an
existing file under the template root, the export fails with an error and
the aggregate `registry.json` manifest is never among the written paths. -/
theorem exportRegistry_missing_source (fs : FS) (tRoot outDir : Str)
    (houtDir : cleanAbsB outDir = true)
    (item : RegistryItem) (f : RegistryFile)
    (hit : item ∈ listRegistryItems) (hf : f ∈ item.files)
    (hmiss : ∀ p, nodeResolve [tRoot, f.source] = some p → existsSync fs p = false) :
    (exportRegistry fs tRoot outDir).2.isOk = false ∧
    (outDir ++ sl :: str "registry.json") ∉
      (exportRegistry fs tRoot outDir).1.map Prod.fst := by
  have herr : ∀ ms, (exportItemsAcc fs tRoot outDir listRegistryItems).2 ≠ Except.ok ms := by
    intro ms hok
    obtain ⟨res, hres⟩ := exportItemsAcc_ok_reads fs tRoot outDir listRegistryItems
      (exportItemsAcc fs tRoot outDir listRegistryItems).1 ms (by rw [← hok]) item hit
    obtain ⟨p, hp1, hp2⟩ := readTemplateFiles_ok_sources fs tRoot (slugForItem item)
      item.files res hres f hf
    rw [hmiss p hp1] at hp2
    exact Bool.noConfusion hp2
  by_cases htr : existsSync fs tRoot = false
  · have hval : exportRegistry fs tRoot outDir =
        ([], Except.error (str "Missing templates directory: " ++ tRoot)) := by
      rw [exportRegistry, if_pos htr]
    rw [hval]
    exact ⟨rfl, by simp⟩
  · cases hE : (exportItemsAcc fs tRoot outDir listRegistryItems).2 with
    | ok ms => exact absurd hE (herr ms)
    | error e =>
      have hval : exportRegistry fs tRoot outDir =
          ((exportItemsAcc fs tRoot outDir listRegistryItems).1, Except.error e) := by
        rw [exportRegistry, if_neg htr, hE]
      rw [hval]
      refine ⟨rfl, ?_⟩
      intro hmem
      obtain ⟨ev, hev, hevp⟩ := List.mem_map.mp hmem
      obtain ⟨it2, hit2, hpath⟩ := exportItemsAcc_fst_paths fs tRoot outDir houtDir
        listRegistryItems catalog_slugs_clean ev hev
      rw [hpath] at hevp
      have htail := List.append_cancel_left hevp
      have h2 : slugForItem it2 ++ str ".json" = str "registry.json" := by
        injection htail
      revert h2
      simp only [listRegistryItems, registryItems, List.mem_cons,
        List.not_mem_nil, or_false] at hit2
      rcases hit2 with h | h <;> subst h <;> decide

/-- Witness for claim C4: with an empty template tree, the export errors and
never writes the aggregate manifest path. -/
theorem exportRegistry_missing_source_witness :
    (exportRegistry c4FS (str "/t") (str "/out")).2.isOk = false ∧
    (str "/out" ++ sl :: str "registry.json") ∉
      (exportRegistry c4FS (str "/t") (str "/out")).1.map Prod.fst :=
  exportRegistry_missing_source c4FS (str "/t") (str "/out") (by decide)
    brandingLogoWithBadgeItem
    { source := str "branding/components/branding/logo-with-badge.tsx",
      target := str "components/branding/logo-with-badge.tsx",
      replaceImports := none }
    (by decide) (by decide)
    (by
      intro p hp
      have h0 : nodeResolve [str "/t",
          ({ source := str "branding/components/branding/logo-with-badge.tsx",
             target := str "components/branding/logo-with-badge.tsx",
             replaceImports := none } : RegistryFile).source] =
          some (str "/t/branding/components/branding/logo-with-badge.tsx") := by
        decide
      have hpe : p = str "/t/branding/components/branding/logo-with-badge.tsx" :=
        (Option.some.inj (h0.symm.trans hp)).symm
      subst hpe
      decide)

/-- Witness for claim C10: a concrete text holding one double-quoted
matched import and one double-quoted unmatched import, rewritten under a
one-entry mapping, satisfies the rewrite decomposition with the
single-quoted replacement. -/
theorem applyImportReplacements_single_quotes_witness :
    RewriteSeq [(str "@/x", str "@/lib/utils")] c10Content
      (str "from " ++ (sqc :: (str "@/lib/utils" ++ (sqc :: c10Tail)))) :=
  applyImportReplacements_single_quotes [(str "@/x", str "@/lib/utils")] c10Content
    (str "from " ++ (sqc :: (str "@/lib/utils" ++ (sqc :: c10Tail)))) (by decide)
